import Mathlib

/-!
Verification of the map-trait repository: a shallow embedding of its
Map/Set capability traits, the standard-container adapters (HashMap,
BTreeMap, HashSet, BTreeSet), the LastInsertMap decorator from the
examples, and the AsyncMap adapter with its SyncGetFuture and
SyncInsertFuture, together with theorems settling the specification
claims.

Modelling conventions:
  - Rust references and guards: the trait impls in the repository all fix
    the guard type GetGuard to a plain immutable reference, so a guard is
    modelled by the value it dereferences to, and get returns Option V.
  - Mutation through a mutable borrow is modelled by explicit state
    passing: a Rust method taking a mutable self and returning R becomes
    a Lean function returning R x (new state).
  - The standard-library containers the adapters delegate to are external
    collaborators of the repository; they are modelled as association
    lists with the documented std::collections semantics: get finds the
    entry with an equal key, insert replaces the value under an equal key
    (keeping the stored key) and returns the displaced previous value.
    The hash containers carry entries in unspecified order, modelled as
    arrival order; the tree containers keep entries ordered by key, and
    their operations walk in key order, stopping early once the query is
    below the current key.
-/

namespace MapTrait

/-! ### Models of the std::collections containers (external collaborators) -/

/-- Model of std::collections::HashMap::get on the entry list: return the
value of the entry whose key equals the query, or none. -/
def hashGet {K V : Type} [DecidableEq K] : List (K × V) → K → Option V
  | [], _ => none
  | (k', v') :: rest, k => if k' = k then some v' else hashGet rest k

/-- Model of std::collections::HashMap::insert on the entry list: if an
entry with an equal key exists, replace its value (the stored key is not
updated) and return the previous value; otherwise add the new entry and
return none. -/
def hashInsert {K V : Type} [DecidableEq K] : List (K × V) → K → V → Option V × List (K × V)
  | [], k, v => (none, [(k, v)])
  | (k', v') :: rest, k, v =>
    if k' = k then (some v', (k', v) :: rest)
    else
      let r := hashInsert rest k v
      (r.1, (k', v') :: r.2)

/-- Model of std::collections::BTreeMap::get: walk the key-ordered entry
list; stop with none as soon as the query key is below the current key. -/
def btreeGet {K V : Type} [LinearOrder K] : List (K × V) → K → Option V
  | [], _ => none
  | (k', v') :: rest, k =>
    if k = k' then some v'
    else if k < k' then none
    else btreeGet rest k

/-- Model of std::collections::BTreeMap::insert: insert at the ordered
position; on an equal key replace the value (keeping the stored key) and
return the previous value. -/
def btreeInsert {K V : Type} [LinearOrder K] : List (K × V) → K → V → Option V × List (K × V)
  | [], k, v => (none, [(k, v)])
  | (k', v') :: rest, k, v =>
    if k = k' then (some v', (k', v) :: rest)
    else if k < k' then (none, (k, v) :: (k', v') :: rest)
    else
      let r := btreeInsert rest k v
      (r.1, (k', v') :: r.2)

/-- Model of std::collections::HashSet::contains on the element list. -/
def hashSetContains {T : Type} [DecidableEq T] : List T → T → Bool
  | [], _ => false
  | y :: rest, x => if y = x then true else hashSetContains rest x

/-- Model of std::collections::HashSet::insert: return true and add the
value if it was absent; return false and leave the set unmodified if it
was already present. -/
def hashSetInsert {T : Type} [DecidableEq T] (s : List T) (x : T) : Bool × List T :=
  if hashSetContains s x then (false, s) else (true, s ++ [x])

/-- Model of std::collections::BTreeSet::contains: walk the ordered
element list, stopping early once the query is below the current value. -/
def btreeSetContains {T : Type} [LinearOrder T] : List T → T → Bool
  | [], _ => false
  | y :: rest, x =>
    if x = y then true
    else if x < y then false
    else btreeSetContains rest x

/-- Model of std::collections::BTreeSet::insert: insert at the ordered
position; return false and leave the set unmodified if already present. -/
def btreeSetInsert {T : Type} [LinearOrder T] : List T → T → Bool × List T
  | [], x => (true, [x])
  | y :: rest, x =>
    if x = y then (false, y :: rest)
    else if x < y then (true, x :: y :: rest)
    else
      let r := btreeSetInsert rest x
      (r.1, y :: r.2)

/-! ### The container states -/

/-- State of a std::collections::HashMap value. -/
structure HashMap (K V : Type) where
  entries : List (K × V)
deriving DecidableEq

/-- State of a std::collections::BTreeMap value. -/
structure BTreeMap (K V : Type) where
  entries : List (K × V)
deriving DecidableEq

/-- State of a std::collections::HashSet value. -/
structure HashSet (T : Type) where
  elems : List T
deriving DecidableEq

/-- State of a std::collections::BTreeSet value. -/
structure BTreeSet (T : Type) where
  elems : List T
deriving DecidableEq

/-! ### The Map and Set traits (src/src/map.rs, src/src/set.rs) -/

/-- The Map trait of src/src/map.rs. get takes a shared borrow and
returns Option of a guard dereferencing to the value (modelled by the
value itself); insert takes a mutable borrow and returns the displaced
previous value, modelled with explicit state passing. -/
class Map (M : Type) (K V : outParam Type) where
  get : M → K → Option V
  insert : M → K → V → Option V × M

/-- The Set trait of src/src/set.rs. contains takes a shared borrow;
insert takes a mutable borrow and reports whether the value was newly
inserted, modelled with explicit state passing. -/
class Set (S : Type) (T : outParam Type) where
  contains : S → T → Bool
  insert : S → T → Bool × S

/-- impl Map for std::collections::HashMap (src/src/map.rs lines 90-111):
both methods delegate to the std container operations. -/
instance instMapHashMap {K V : Type} [DecidableEq K] : Map (HashMap K V) K V where
  get m k := hashGet m.entries k
  insert m k v :=
    let r := hashInsert m.entries k v
    (r.1, ⟨r.2⟩)

/-- impl Map for std::collections::BTreeMap (src/src/map.rs lines
113-133): both methods delegate to the std container operations. -/
instance instMapBTreeMap {K V : Type} [LinearOrder K] : Map (BTreeMap K V) K V where
  get m k := btreeGet m.entries k
  insert m k v :=
    let r := btreeInsert m.entries k v
    (r.1, ⟨r.2⟩)

/-- impl Set for std::collections::HashSet (src/src/set.rs lines 82-100). -/
instance instSetHashSet {T : Type} [DecidableEq T] : Set (HashSet T) T where
  contains s x := hashSetContains s.elems x
  insert s x :=
    let r := hashSetInsert s.elems x
    (r.1, ⟨r.2⟩)

/-- impl Set for std::collections::BTreeSet (src/src/set.rs lines
102-119). -/
instance instSetBTreeSet {T : Type} [LinearOrder T] : Set (BTreeSet T) T where
  contains s x := btreeSetContains s.elems x
  insert s x :=
    let r := btreeSetInsert s.elems x
    (r.1, ⟨r.2⟩)

/-! ### The LastInsertMap decorator (src/examples/last_insert_map.rs) -/

/-- The LastInsertMap decorator state: an inner container implementing
Map plus a shadow copy of the most recently inserted key and value. -/
structure LastInsertMap (M K V : Type) where
  inner_map : M
  last_key : K
  last_value : V
deriving DecidableEq

namespace LastInsertMap

/-- LastInsertMap::new (src/examples/last_insert_map.rs lines 21-28):
insert the seed pair into the inner map, discarding the returned Option,
and seed the shadow fields with the pair. -/
def new {M K V : Type} [Map M K V] (map : M) (key : K) (value : V) : LastInsertMap M K V :=
  ⟨(Map.insert map key value).2, key, value⟩

/-- LastInsertMap::get_last_insert (lines 30-32): expose the shadow
entry without touching the inner container. -/
def get_last_insert {M K V : Type} (s : LastInsertMap M K V) : K × V :=
  (s.last_key, s.last_value)

/-- LastInsertMap::get (trait impl, lines 44-50): pure pass-through to
the inner map. -/
def get {M K V : Type} [Map M K V] (s : LastInsertMap M K V) (k : K) : Option V :=
  Map.get s.inner_map k

/-- LastInsertMap::insert (trait impl, lines 52-56): move the shadow
fields to the new pair, forward to the inner insert, and return whatever
the inner insert returns. -/
def insert {M K V : Type} [Map M K V] (s : LastInsertMap M K V) (k : K) (v : V) :
    Option V × LastInsertMap M K V :=
  let r := Map.insert s.inner_map k v
  (r.1, ⟨r.2, k, v⟩)

end LastInsertMap

/-- impl Map for LastInsertMap (src/examples/last_insert_map.rs lines
35-57). -/
instance instMapLastInsertMap {M K V : Type} [Map M K V] : Map (LastInsertMap M K V) K V where
  get := LastInsertMap.get
  insert := LastInsertMap.insert

/-! ### The AsyncMap adapter (src/src/async_map.rs) -/

/-- The std::task::Poll type. -/
inductive Poll (α : Type) where
  | Ready : α → Poll α
  | Pending : Poll α
deriving DecidableEq

/-- SyncGetFuture (src/src/async_map.rs lines 27-32): the future state
captures the borrowed map and the query key; no result is stored. -/
structure SyncGetFuture (M K : Type) where
  map : M
  key : K
deriving DecidableEq

/-- SyncGetFuture::poll (lines 58-61): perform the get on the captured
map and report Ready with its result. -/
def SyncGetFuture.poll {M K V : Type} [Map M K V] (f : SyncGetFuture M K) : Poll (Option V) :=
  Poll.Ready (Map.get f.map f.key)

/-- SyncInsertFuture (lines 63-68): the future state captures the
mutably borrowed map and the owned key and value; no result is stored
and the map is not yet modified. -/
structure SyncInsertFuture (M K V : Type) where
  map : M
  key : K
  value : V
deriving DecidableEq

/-- SyncInsertFuture::poll (lines 92-95): perform the insert on the
captured map and report Ready with its result. The mutation through the
mutable borrow is modelled by returning the updated map alongside the
Option result. -/
def SyncInsertFuture.poll {M K V : Type} [Map M K V] (f : SyncInsertFuture M K V) :
    Poll (Option V × M) :=
  Poll.Ready (Map.insert f.map f.key f.value)

namespace AsyncMap

/-- AsyncMap::get of the blanket impl for M: Map (src/src/async_map.rs
lines 109-116): construct a SyncGetFuture capturing the map borrow and
the key. -/
def get {M K : Type} (m : M) (k : K) : SyncGetFuture M K :=
  ⟨m, k⟩

/-- AsyncMap::insert of the blanket impl (lines 118-121): construct a
SyncInsertFuture capturing the map borrow, the key and the value. -/
def insert {M K V : Type} [Map M K V] (m : M) (k : K) (v : V) : SyncInsertFuture M K V :=
  ⟨m, k, v⟩

end AsyncMap

/-! ### Operation sequences, run synchronously and through the adapter -/

/-- A call of the Map interface: a get with a key, or an insert with a
key and a value. -/
inductive MapOp (K V : Type) where
  | get : K → MapOp K V
  | insert : K → V → MapOp K V
deriving DecidableEq

/-- Run a sequence of calls directly on a Map implementer, collecting
the Option result of each call (for a get, the dereferenced guard). -/
def runSync {M K V : Type} [Map M K V] : M → List (MapOp K V) → List (Option V) × M
  | m, [] => ([], m)
  | m, MapOp.get k :: rest =>
    let r := Map.get m k
    let rs := runSync m rest
    (r :: rs.1, rs.2)
  | m, MapOp.insert k v :: rest =>
    let r := Map.insert m k v
    let rs := runSync r.2 rest
    (r.1 :: rs.1, rs.2)

/-- Run the same sequence through the AsyncMap blanket adapter: each
call constructs its future and the future is immediately polled to
completion before the next call. -/
def runAsync {M K V : Type} [Map M K V] : M → List (MapOp K V) → List (Option V) × M
  | m, [] => ([], m)
  | m, MapOp.get k :: rest =>
    match SyncGetFuture.poll (V := V) (AsyncMap.get m k) with
    | Poll.Ready r =>
      let rs := runAsync m rest
      (r :: rs.1, rs.2)
    | Poll.Pending => ([], m) -- unreachable: poll always returns Ready
  | m, MapOp.insert k v :: rest =>
    match SyncInsertFuture.poll (AsyncMap.insert m k v) with
    | Poll.Ready r =>
      let rs := runAsync r.2 rest
      (r.1 :: rs.1, rs.2)
    | Poll.Pending => ([], m) -- unreachable: poll always returns Ready

/-- Fold a list of key/value pairs into a Map implementer by successive
insert calls, discarding the Option results. -/
def insertAll {M K V : Type} [Map M K V] : M → List (K × V) → M
  | m, [] => m
  | m, (k, v) :: rest => insertAll (Map.insert m k v).2 rest

/-! ### Explicit-state form of get, and lookup by a borrowed view -/

/-- The get method of the HashMap adapter takes self by shared borrow: in
explicit-state form the call returns its result together with the state
after the call, which a shared borrow cannot have mutated. -/
def HashMap.getCall {K V : Type} [DecidableEq K] (m : HashMap K V) (k : K) :
    Option V × HashMap K V :=
  (hashGet m.entries k, m)

/-- The get method of the BTreeMap adapter takes self by shared borrow:
explicit-state form as for the HashMap adapter. -/
def BTreeMap.getCall {K V : Type} [LinearOrder K] (m : BTreeMap K V) (k : K) :
    Option V × BTreeMap K V :=
  (btreeGet m.entries k, m)

/-- Heterogeneous lookup of the HashMap adapter: the query has the
borrowed-view type Q and is compared against the borrowed view of each
stored key, as K: Borrow Q directs. The view function models the borrow
method of the Borrow trait. -/
def hashGetBy {K V Q : Type} [DecidableEq Q] (view : K → Q) :
    List (K × V) → Q → Option V
  | [], _ => none
  | (k', v') :: rest, q => if view k' = q then some v' else hashGetBy view rest q

/-- Heterogeneous lookup of the BTreeMap adapter: the ordered walk
compares the Q-typed query against the borrowed view of each stored key. -/
def btreeGetBy {K V Q : Type} [LinearOrder Q] (view : K → Q) :
    List (K × V) → Q → Option V
  | [], _ => none
  | (k', v') :: rest, q =>
    if q = view k' then some v'
    else if q < view k' then none
    else btreeGetBy view rest q

/-- Heterogeneous membership test of the HashSet adapter. -/
def hashSetContainsBy {T Q : Type} [DecidableEq Q] (view : T → Q) : List T → Q → Bool
  | [], _ => false
  | y :: rest, q => if view y = q then true else hashSetContainsBy view rest q

/-- Heterogeneous membership test of the BTreeSet adapter. -/
def btreeSetContainsBy {T Q : Type} [LinearOrder Q] (view : T → Q) : List T → Q → Bool
  | [], _ => false
  | y :: rest, q =>
    if q = view y then true
    else if q < view y then false
    else btreeSetContainsBy view rest q

/-- The keys of an entry list are strictly increasing: the invariant
every reachable BTreeMap state satisfies. -/
def sortedKeys {K V : Type} [LinearOrder K] : List (K × V) → Bool
  | [] => true
  | [_] => true
  | p :: q :: rest => decide (p.1 < q.1) && sortedKeys (q :: rest)

/-! ### Laws of the modelled std containers -/

theorem hashInsert_fst {K V : Type} [DecidableEq K] (l : List (K × V)) (k : K) (v : V) :
    (hashInsert l k v).1 = hashGet l k := by
  induction l with
  | nil => simp [hashInsert, hashGet]
  | cons p rest ih =>
    obtain ⟨k', v'⟩ := p
    by_cases h : k' = k <;> simp [hashInsert, hashGet, h, ih]

theorem hashGet_hashInsert_self {K V : Type} [DecidableEq K] (l : List (K × V)) (k : K) (v : V) :
    hashGet (hashInsert l k v).2 k = some v := by
  induction l with
  | nil => simp [hashInsert, hashGet]
  | cons p rest ih =>
    obtain ⟨k', v'⟩ := p
    by_cases h : k' = k <;> simp [hashInsert, hashGet, h, ih]

theorem hashGet_hashInsert_other {K V : Type} [DecidableEq K] (l : List (K × V)) (k q : K)
    (v : V) (hq : q ≠ k) : hashGet (hashInsert l k v).2 q = hashGet l q := by
  have hkq : ¬ k = q := fun hc => hq hc.symm
  induction l with
  | nil => simp [hashInsert, hashGet, hkq]
  | cons p rest ih =>
    obtain ⟨k', v'⟩ := p
    by_cases h : k' = k
    · subst h
      simp [hashInsert, hashGet, hkq]
    · simp [hashInsert, hashGet, h, ih]

theorem hashGet_eq_none_iff {K V : Type} [DecidableEq K] (l : List (K × V)) (k : K) :
    hashGet l k = none ↔ ∀ p ∈ l, p.1 ≠ k := by
  induction l with
  | nil => simp [hashGet]
  | cons p rest ih =>
    obtain ⟨k', v'⟩ := p
    by_cases h : k' = k <;> simp [hashGet, h, ih]

theorem hashInsert_hashInsert_self {K V : Type} [DecidableEq K] (l : List (K × V)) (k : K)
    (v : V) : hashInsert (hashInsert l k v).2 k v = (some v, (hashInsert l k v).2) := by
  induction l with
  | nil => simp [hashInsert]
  | cons p rest ih =>
    obtain ⟨k', v'⟩ := p
    by_cases h : k' = k <;> simp [hashInsert, h, ih]

theorem btreeInsert_fst {K V : Type} [LinearOrder K] (l : List (K × V)) (k : K) (v : V) :
    (btreeInsert l k v).1 = btreeGet l k := by
  induction l with
  | nil => simp [btreeInsert, btreeGet]
  | cons p rest ih =>
    obtain ⟨k', v'⟩ := p
    by_cases h : k = k'
    · simp [btreeInsert, btreeGet, h]
    · by_cases h2 : k < k' <;> simp [btreeInsert, btreeGet, h, h2, ih]

theorem btreeGet_btreeInsert_self {K V : Type} [LinearOrder K] (l : List (K × V)) (k : K)
    (v : V) : btreeGet (btreeInsert l k v).2 k = some v := by
  induction l with
  | nil => simp [btreeInsert, btreeGet]
  | cons p rest ih =>
    obtain ⟨k', v'⟩ := p
    by_cases h : k = k'
    · simp [btreeInsert, btreeGet, h]
    · by_cases h2 : k < k'
      · simp [btreeInsert, btreeGet, h, h2]
      · have h3 : ¬ k < k' := h2
        simp [btreeInsert, btreeGet, h, h2, ih]

theorem btreeGet_btreeInsert_other {K V : Type} [LinearOrder K] (l : List (K × V)) (k q : K)
    (v : V) (hq : q ≠ k) : btreeGet (btreeInsert l k v).2 q = btreeGet l q := by
  induction l with
  | nil => simp [btreeInsert, btreeGet, hq]
  | cons p rest ih =>
    obtain ⟨k', v'⟩ := p
    by_cases h : k = k'
    · subst h
      simp [btreeInsert, btreeGet, hq]
    · by_cases h2 : k < k'
      · by_cases h3 : q < k
        · have h4 : q < k' := lt_trans h3 h2
          have h5 : q ≠ k' := ne_of_lt h4
          simp [btreeInsert, btreeGet, h, hq, h2, h3, h4, h5]
        · simp [btreeInsert, btreeGet, h, hq, h2, h3]
      · simp [btreeInsert, btreeGet, h, h2, ih]

theorem sortedKeys_tail {K V : Type} [LinearOrder K] {p : K × V} {l : List (K × V)}
    (h : sortedKeys (p :: l) = true) : sortedKeys l = true := by
  cases l with
  | nil => simp [sortedKeys]
  | cons q rest =>
    simp only [sortedKeys, Bool.and_eq_true, decide_eq_true_eq] at h
    exact h.2

theorem sortedKeys_head_lt {K V : Type} [LinearOrder K] {p : K × V} {l : List (K × V)}
    (h : sortedKeys (p :: l) = true) : ∀ q ∈ l, p.1 < q.1 := by
  induction l generalizing p with
  | nil => simp
  | cons q rest ih =>
    simp only [sortedKeys, Bool.and_eq_true, decide_eq_true_eq] at h
    intro r hr
    rcases List.mem_cons.mp hr with hr | hr
    · exact hr ▸ h.1
    · exact lt_trans h.1 (ih h.2 r hr)

theorem btreeGet_eq_none_iff {K V : Type} [LinearOrder K] {l : List (K × V)} (k : K)
    (hs : sortedKeys l = true) : btreeGet l k = none ↔ ∀ p ∈ l, p.1 ≠ k := by
  induction l with
  | nil => simp [btreeGet]
  | cons p rest ih =>
    obtain ⟨k', v'⟩ := p
    by_cases h : k = k'
    · subst h
      simp [btreeGet]
    · by_cases h2 : k < k'
      · have hhd : k' ≠ k := ne_of_gt h2
        have hrest : ∀ (a : K) (b : V), (a, b) ∈ rest → ¬ a = k := by
          intro a b hab
          exact ne_of_gt (lt_trans h2 (sortedKeys_head_lt hs (a, b) hab))
        simp [btreeGet, h, h2, hhd]
        exact hrest
      · have h3 : k' < k := lt_of_le_of_ne (not_lt.mp h2) (fun hc => h hc.symm)
        simp [btreeGet, h, h2, ih (sortedKeys_tail hs), ne_of_lt h3]

theorem sortedKeys_btreeInsert {K V : Type} [LinearOrder K] (l : List (K × V)) (k : K)
    (v : V) (hs : sortedKeys l = true) : sortedKeys (btreeInsert l k v).2 = true := by
  induction l with
  | nil => simp [btreeInsert, sortedKeys]
  | cons p rest ih =>
    obtain ⟨k', v'⟩ := p
    by_cases h : k = k'
    · subst h
      simp only [btreeInsert, if_pos rfl]
      cases rest with
      | nil => simp [sortedKeys]
      | cons r rest2 =>
        simp only [sortedKeys, Bool.and_eq_true, decide_eq_true_eq] at hs ⊢
        exact hs
    · by_cases h2 : k < k'
      · simp only [btreeInsert, if_neg h, if_pos h2]
        cases rest with
        | nil => simp [sortedKeys, h2]
        | cons r rest2 =>
          simp only [sortedKeys, Bool.and_eq_true, decide_eq_true_eq] at hs ⊢
          exact ⟨h2, hs⟩
      · have h3 : k' < k := lt_of_le_of_ne (not_lt.mp h2) (fun hc => h hc.symm)
        simp only [btreeInsert, if_neg h, if_neg h2]
        have htail := ih (sortedKeys_tail hs)
        cases hrest : (btreeInsert rest k v).2 with
        | nil => simp [sortedKeys]
        | cons r rest2 =>
          have hr : k' < r.1 := by
            cases rest with
            | nil =>
              simp [btreeInsert] at hrest
              rw [← hrest.1]
              exact h3
            | cons s rest3 =>
              have hs1 : k' < s.1 :=
                sortedKeys_head_lt hs s (List.mem_cons_self s rest3)
              by_cases h4 : k = s.1
              · simp only [btreeInsert, if_pos h4] at hrest
                have hr1 : r = (s.1, v) := ((List.cons.inj hrest).1).symm
                rw [hr1]
                exact hs1
              · by_cases h5 : k < s.1
                · simp only [btreeInsert, if_neg h4, if_pos h5] at hrest
                  have hr1 : r = (k, v) := ((List.cons.inj hrest).1).symm
                  rw [hr1]
                  exact h3
                · simp only [btreeInsert, if_neg h4, if_neg h5] at hrest
                  have hr1 : r = (s.1, s.2) := ((List.cons.inj hrest).1).symm
                  rw [hr1]
                  exact hs1
          rw [hrest] at htail
          simp only [sortedKeys, Bool.and_eq_true, decide_eq_true_eq]
          exact ⟨hr, htail⟩

theorem hashSetContains_append_self {T : Type} [DecidableEq T] (s : List T) (x : T) :
    hashSetContains (s ++ [x]) x = true := by
  induction s with
  | nil => simp [hashSetContains]
  | cons y rest ih => by_cases h : y = x <;> simp [hashSetContains, h, ih]

theorem hashSetInsert_fst {T : Type} [DecidableEq T] (s : List T) (x : T) :
    (hashSetInsert s x).1 = !hashSetContains s x := by
  by_cases h : hashSetContains s x = true <;> simp [hashSetInsert, h]

theorem hashSetContains_insert_self {T : Type} [DecidableEq T] (s : List T) (x : T) :
    hashSetContains (hashSetInsert s x).2 x = true := by
  by_cases h : hashSetContains s x = true <;>
    simp [hashSetInsert, h, hashSetContains_append_self]

theorem hashSetInsert_mem {T : Type} [DecidableEq T] (s : List T) (x : T)
    (h : hashSetContains s x = true) : hashSetInsert s x = (false, s) := by
  simp [hashSetInsert, h]

theorem btreeSetInsert_fst {T : Type} [LinearOrder T] (s : List T) (x : T) :
    (btreeSetInsert s x).1 = !btreeSetContains s x := by
  induction s with
  | nil => simp [btreeSetInsert, btreeSetContains]
  | cons y rest ih =>
    by_cases h : x = y
    · simp [btreeSetInsert, btreeSetContains, h]
    · by_cases h2 : x < y <;> simp [btreeSetInsert, btreeSetContains, h, h2, ih]

theorem btreeSetContains_insert_self {T : Type} [LinearOrder T] (s : List T) (x : T) :
    btreeSetContains (btreeSetInsert s x).2 x = true := by
  induction s with
  | nil => simp [btreeSetInsert, btreeSetContains]
  | cons y rest ih =>
    by_cases h : x = y
    · simp [btreeSetInsert, btreeSetContains, h]
    · by_cases h2 : x < y <;> simp [btreeSetInsert, btreeSetContains, h, h2, ih]

theorem btreeSetInsert_mem {T : Type} [LinearOrder T] (s : List T) (x : T)
    (h : btreeSetContains s x = true) : btreeSetInsert s x = (false, s) := by
  induction s with
  | nil => simp [btreeSetContains] at h
  | cons y rest ih =>
    by_cases h1 : x = y
    · simp [btreeSetInsert, h1]
    · by_cases h2 : x < y
      · simp [btreeSetContains, h1, h2] at h
      · simp only [btreeSetContains, if_neg h1, if_neg h2] at h
        simp [btreeSetInsert, h1, h2, ih h]

/-! ### Laws of heterogeneous lookup through a borrowed view -/

theorem hashGetBy_view {K V Q : Type} [DecidableEq K] [DecidableEq Q] (view : K → Q)
    (hview : ∀ a b : K, view a = view b ↔ a = b) (l : List (K × V)) (k : K) :
    hashGetBy view l (view k) = hashGet l k := by
  induction l with
  | nil => simp [hashGetBy, hashGet]
  | cons p rest ih =>
    obtain ⟨k', v'⟩ := p
    by_cases h : k' = k
    · simp [hashGetBy, hashGet, h]
    · have hv : ¬ view k' = view k := fun hc => h ((hview k' k).mp hc)
      simp [hashGetBy, hashGet, h, hv, ih]

theorem btreeGetBy_view {K V Q : Type} [LinearOrder K] [LinearOrder Q] (view : K → Q)
    (heq : ∀ a b : K, view a = view b ↔ a = b)
    (hlt : ∀ a b : K, view a < view b ↔ a < b) (l : List (K × V)) (k : K) :
    btreeGetBy view l (view k) = btreeGet l k := by
  induction l with
  | nil => simp [btreeGetBy, btreeGet]
  | cons p rest ih =>
    obtain ⟨k', v'⟩ := p
    by_cases h : k = k'
    · simp [btreeGetBy, btreeGet, h]
    · have hv : ¬ view k = view k' := fun hc => h ((heq k k').mp hc)
      by_cases h2 : k < k'
      · simp [btreeGetBy, btreeGet, h, hv, h2, (hlt k k').mpr h2]
      · have hv2 : ¬ view k < view k' := fun hc => h2 ((hlt k k').mp hc)
        simp [btreeGetBy, btreeGet, h, hv, h2, hv2, ih]

theorem hashSetContainsBy_view {T Q : Type} [DecidableEq T] [DecidableEq Q] (view : T → Q)
    (hview : ∀ a b : T, view a = view b ↔ a = b) (s : List T) (x : T) :
    hashSetContainsBy view s (view x) = hashSetContains s x := by
  induction s with
  | nil => simp [hashSetContainsBy, hashSetContains]
  | cons y rest ih =>
    by_cases h : y = x
    · simp [hashSetContainsBy, hashSetContains, h]
    · have hv : ¬ view y = view x := fun hc => h ((hview y x).mp hc)
      simp [hashSetContainsBy, hashSetContains, h, hv, ih]

theorem btreeSetContainsBy_view {T Q : Type} [LinearOrder T] [LinearOrder Q] (view : T → Q)
    (heq : ∀ a b : T, view a = view b ↔ a = b)
    (hlt : ∀ a b : T, view a < view b ↔ a < b) (s : List T) (x : T) :
    btreeSetContainsBy view s (view x) = btreeSetContains s x := by
  induction s with
  | nil => simp [btreeSetContainsBy, btreeSetContains]
  | cons y rest ih =>
    by_cases h : x = y
    · simp [btreeSetContainsBy, btreeSetContains, h]
    · have hv : ¬ view x = view y := fun hc => h ((heq x y).mp hc)
      by_cases h2 : x < y
      · simp [btreeSetContainsBy, btreeSetContains, h, hv, h2, (hlt x y).mpr h2]
      · have hv2 : ¬ view x < view y := fun hc => h2 ((hlt x y).mp hc)
        simp [btreeSetContainsBy, btreeSetContains, h, hv, h2, hv2, ih]

/-! ### Laws of the LastInsertMap decorator -/

theorem Map_get_lastInsertMap {M K V : Type} [Map M K V] (s : LastInsertMap M K V) (q : K) :
    Map.get s q = Map.get s.inner_map q := rfl

theorem Map_insert_lastInsertMap {M K V : Type} [Map M K V] (s : LastInsertMap M K V)
    (k : K) (v : V) :
    Map.insert s k v =
      ((Map.insert s.inner_map k v).1, ⟨(Map.insert s.inner_map k v).2, k, v⟩) := rfl

theorem insertAll_inner {M K V : Type} [Map M K V] (s : LastInsertMap M K V)
    (ops : List (K × V)) : (insertAll s ops).inner_map = insertAll s.inner_map ops := by
  induction ops generalizing s with
  | nil => rfl
  | cons p rest ih =>
    obtain ⟨k, v⟩ := p
    simp [insertAll, Map_insert_lastInsertMap, ih]

theorem insertAll_get_last {M K V : Type} [Map M K V] (s : LastInsertMap M K V)
    (ops : List (K × V)) (h : ops ≠ []) :
    (insertAll s ops).get_last_insert = ops.getLast h := by
  induction ops generalizing s with
  | nil => exact absurd rfl h
  | cons p rest ih =>
    obtain ⟨k, v⟩ := p
    by_cases hr : rest = []
    · subst hr
      simp [insertAll, Map_insert_lastInsertMap, LastInsertMap.get_last_insert, List.getLast]
    · rw [List.getLast_cons hr]
      exact ih _ hr

/-! ### Bridges between the trait methods and the container models -/

theorem Map_get_hashMap {K V : Type} [DecidableEq K] (m : HashMap K V) (k : K) :
    Map.get m k = hashGet m.entries k := rfl

theorem Map_insert_hashMap {K V : Type} [DecidableEq K] (m : HashMap K V) (k : K) (v : V) :
    Map.insert m k v = ((hashInsert m.entries k v).1, ⟨(hashInsert m.entries k v).2⟩) := rfl

theorem Map_get_btreeMap {K V : Type} [LinearOrder K] (m : BTreeMap K V) (k : K) :
    Map.get m k = btreeGet m.entries k := rfl

theorem Map_insert_btreeMap {K V : Type} [LinearOrder K] (m : BTreeMap K V) (k : K) (v : V) :
    Map.insert m k v = ((btreeInsert m.entries k v).1, ⟨(btreeInsert m.entries k v).2⟩) := rfl

theorem Set_contains_hashSet {T : Type} [DecidableEq T] (s : HashSet T) (x : T) :
    Set.contains s x = hashSetContains s.elems x := rfl

theorem Set_insert_hashSet {T : Type} [DecidableEq T] (s : HashSet T) (x : T) :
    Set.insert s x = ((hashSetInsert s.elems x).1, ⟨(hashSetInsert s.elems x).2⟩) := rfl

theorem Set_contains_btreeSet {T : Type} [LinearOrder T] (s : BTreeSet T) (x : T) :
    Set.contains s x = btreeSetContains s.elems x := rfl

theorem Set_insert_btreeSet {T : Type} [LinearOrder T] (s : BTreeSet T) (x : T) :
    Set.insert s x = ((btreeSetInsert s.elems x).1, ⟨(btreeSetInsert s.elems x).2⟩) := rfl

/-! ### The claims -/

/-- C1: for the HashMap and BTreeMap adapters of the Map trait and every
key/value pair (k, v) where k is not present in the map, insert(k, v)
returns None, and a subsequent get with k returns a guard dereferencing
to v. For the BTreeMap adapter the entry list carries the key-ordering
invariant every reachable state satisfies. -/
theorem C1_insert_fresh_get {K V : Type} [DecidableEq K] [LinearOrder K]
    (hm : HashMap K V) (bm : BTreeMap K V) (k : K) (v : V)
    (h1 : ∀ p ∈ hm.entries, p.1 ≠ k) (hs : sortedKeys bm.entries = true)
    (h2 : ∀ p ∈ bm.entries, p.1 ≠ k) :
    (Map.insert hm k v).1 = none ∧ Map.get (Map.insert hm k v).2 k = some v ∧
    (Map.insert bm k v).1 = none ∧ Map.get (Map.insert bm k v).2 k = some v := by
  refine ⟨?_, ?_, ?_, ?_⟩
  · rw [Map_insert_hashMap]
    rw [hashInsert_fst]
    exact (hashGet_eq_none_iff _ _).mpr h1
  · rw [Map_insert_hashMap]
    exact hashGet_hashInsert_self _ _ _
  · rw [Map_insert_btreeMap]
    rw [btreeInsert_fst]
    exact (btreeGet_eq_none_iff _ hs).mpr h2
  · rw [Map_insert_btreeMap]
    exact btreeGet_btreeInsert_self _ _ _

/-- C1 witness at a concrete input: maps holding only key 2, fresh key 1. -/
theorem C1_insert_fresh_get_witness :
    (∀ p ∈ ((⟨[(2, 5)]⟩ : HashMap ℕ ℕ)).entries, p.1 ≠ 1) ∧
    sortedKeys ((⟨[(2, 5)]⟩ : BTreeMap ℕ ℕ)).entries = true ∧
    (∀ p ∈ ((⟨[(2, 5)]⟩ : BTreeMap ℕ ℕ)).entries, p.1 ≠ 1) ∧
    ((Map.insert (⟨[(2, 5)]⟩ : HashMap ℕ ℕ) 1 7).1 = none ∧
      Map.get (Map.insert (⟨[(2, 5)]⟩ : HashMap ℕ ℕ) 1 7).2 1 = some 7 ∧
      (Map.insert (⟨[(2, 5)]⟩ : BTreeMap ℕ ℕ) 1 7).1 = none ∧
      Map.get (Map.insert (⟨[(2, 5)]⟩ : BTreeMap ℕ ℕ) 1 7).2 1 = some 7) :=
  ⟨by decide, by decide, by decide,
    C1_insert_fresh_get (⟨[(2, 5)]⟩ : HashMap ℕ ℕ) (⟨[(2, 5)]⟩ : BTreeMap ℕ ℕ) 1 7
      (by decide) (by decide) (by decide)⟩

/-- C2: for the HashMap and BTreeMap adapters and every key k already
mapped to v1, insert(k, v2) returns Some v1 and a subsequent get with k
returns a guard dereferencing to v2 (last write wins, the displaced
previous value returned exactly once, as the Some v1 result). -/
theorem C2_insert_overwrite {K V : Type} [DecidableEq K] [LinearOrder K]
    (hm : HashMap K V) (bm : BTreeMap K V) (k : K) (v1 v2 : V)
    (h1 : Map.get hm k = some v1) (h2 : Map.get bm k = some v1) :
    (Map.insert hm k v2).1 = some v1 ∧ Map.get (Map.insert hm k v2).2 k = some v2 ∧
    (Map.insert bm k v2).1 = some v1 ∧ Map.get (Map.insert bm k v2).2 k = some v2 := by
  refine ⟨?_, ?_, ?_, ?_⟩
  · rw [Map_insert_hashMap]
    rw [Map_get_hashMap] at h1
    exact (hashInsert_fst _ _ _).trans h1
  · rw [Map_insert_hashMap]
    exact hashGet_hashInsert_self _ _ _
  · rw [Map_insert_btreeMap]
    rw [Map_get_btreeMap] at h2
    exact (btreeInsert_fst _ _ _).trans h2
  · rw [Map_insert_btreeMap]
    exact btreeGet_btreeInsert_self _ _ _

/-- C2 witness at a concrete input: key 1 mapped to 2, overwritten by 3. -/
theorem C2_insert_overwrite_witness :
    Map.get (⟨[(1, 2)]⟩ : HashMap ℕ ℕ) 1 = some 2 ∧
    Map.get (⟨[(1, 2)]⟩ : BTreeMap ℕ ℕ) 1 = some 2 ∧
    ((Map.insert (⟨[(1, 2)]⟩ : HashMap ℕ ℕ) 1 3).1 = some 2 ∧
      Map.get (Map.insert (⟨[(1, 2)]⟩ : HashMap ℕ ℕ) 1 3).2 1 = some 3 ∧
      (Map.insert (⟨[(1, 2)]⟩ : BTreeMap ℕ ℕ) 1 3).1 = some 2 ∧
      Map.get (Map.insert (⟨[(1, 2)]⟩ : BTreeMap ℕ ℕ) 1 3).2 1 = some 3) :=
  ⟨by decide, by decide,
    C2_insert_overwrite (⟨[(1, 2)]⟩ : HashMap ℕ ℕ) (⟨[(1, 2)]⟩ : BTreeMap ℕ ℕ) 1 2 3
      (by decide) (by decide)⟩

/-- C3: for every Map implementer M and every sequence of get/insert
calls, running the sequence through the AsyncMap blanket adapter and
polling each returned future to completion yields, call for call, the
same Option results (and the same final state) as running the sequence
directly on M. -/
theorem C3_async_equiv {M K V : Type} [Map M K V] (m : M) (ops : List (MapOp K V)) :
    runAsync m ops = runSync m ops := by
  induction ops generalizing m with
  | nil => rfl
  | cons op rest ih =>
    cases op with
    | get k => simp [runAsync, runSync, SyncGetFuture.poll, AsyncMap.get, ih]
    | insert k v => simp [runAsync, runSync, SyncInsertFuture.poll, AsyncMap.insert, ih]

/-- C4 counterexample: calling AsyncMap::insert on the empty hash map
with the pair (1, 2) does not perform the insertion at call time: the
map captured in the returned future is still the pre-call map, key 1 is
still absent from it, and the captured map differs from the map the
synchronous insert would have produced. The work is performed by poll,
not wrapped precomputed in the future. -/
theorem C4_counterexample :
    Map.get (AsyncMap.insert (⟨[]⟩ : HashMap ℕ ℕ) 1 2).map 1 = none ∧
    (AsyncMap.insert (⟨[]⟩ : HashMap ℕ ℕ) 1 2).map ≠ (Map.insert (⟨[]⟩ : HashMap ℕ ℕ) 1 2).2 := by
  refine ⟨rfl, ?_⟩
  intro hc
  simp [AsyncMap.insert, Map_insert_hashMap, hashInsert] at hc

/-- C4 amended: calling AsyncMap::get or AsyncMap::insert performs no
map operation at call time; the returned future captures the map and the
call arguments unchanged, and its poll performs the underlying
synchronous operation and immediately reports completion with that
result. -/
theorem C4_lazy_futures {M K V : Type} [Map M K V] (m : M) (k : K) (v : V) :
    AsyncMap.get m k = ⟨m, k⟩ ∧
    SyncGetFuture.poll (V := V) (AsyncMap.get m k) = Poll.Ready (Map.get m k) ∧
    AsyncMap.insert m k v = ⟨m, k, v⟩ ∧
    (AsyncMap.insert m k v).map = m ∧
    SyncInsertFuture.poll (AsyncMap.insert m k v) = Poll.Ready (Map.insert m k v) :=
  ⟨rfl, rfl, rfl, rfl, rfl⟩

/-- C5: for a LastInsertMap constructed with a seed entry over any Map
implementer and any nonempty subsequent sequence of insert calls ending
with its last pair, get_last_insert returns exactly that last pair;
every get call on the LastInsertMap returns exactly what the same get
call on its inner map returns; and the inner map after the sequence is
the map obtained by running the seed insert and the same sequence
directly on the inner container. -/
theorem C5_last_insert_invariant {M K V : Type} [Map M K V] (m : M) (k0 : K) (v0 : V)
    (ops : List (K × V)) (h : ops ≠ []) :
    (insertAll (LastInsertMap.new m k0 v0) ops).get_last_insert = ops.getLast h ∧
    (∀ (s : LastInsertMap M K V) (q : K), Map.get s q = Map.get s.inner_map q) ∧
    (insertAll (LastInsertMap.new m k0 v0) ops).inner_map =
      insertAll (Map.insert m k0 v0).2 ops :=
  ⟨insertAll_get_last _ ops h, fun _ _ => rfl, by
    rw [insertAll_inner]
    rfl⟩

/-- C5 witness at a concrete input: hash-backed decorator seeded with
(0, 1), then the single insert (1, 2). -/
theorem C5_last_insert_invariant_witness :
    ([((1 : ℕ), (2 : ℕ))] ≠ []) ∧
    ((insertAll (LastInsertMap.new (⟨[]⟩ : HashMap ℕ ℕ) 0 1) [(1, 2)]).get_last_insert =
        (1, 2) ∧
      (∀ (s : LastInsertMap (HashMap ℕ ℕ) ℕ ℕ) (q : ℕ),
        Map.get s q = Map.get s.inner_map q) ∧
      (insertAll (LastInsertMap.new (⟨[]⟩ : HashMap ℕ ℕ) 0 1) [(1, 2)]).inner_map =
        insertAll (Map.insert (⟨[]⟩ : HashMap ℕ ℕ) 0 1).2 [(1, 2)]) := by
  have hmain :=
    C5_last_insert_invariant (⟨[]⟩ : HashMap ℕ ℕ) 0 1 [(1, 2)] (by decide)
  exact ⟨by decide, hmain.1, hmain.2.1, hmain.2.2⟩

/-- C6: for the HashSet and BTreeSet adapters of the Set trait and every
value x, insert(x) returns true exactly when x was not already a member;
after insert(x), contains(x) returns true; and re-inserting the now
present x returns false and leaves the state, hence the membership
observed by contains at every value, unchanged. -/
theorem C6_set_insert_contains {T : Type} [DecidableEq T] [LinearOrder T]
    (hs : HashSet T) (bs : BTreeSet T) (x : T) :
    (Set.insert hs x).1 = !Set.contains hs x ∧
    Set.contains (Set.insert hs x).2 x = true ∧
    Set.insert (Set.insert hs x).2 x = (false, (Set.insert hs x).2) ∧
    (∀ y, Set.contains (Set.insert (Set.insert hs x).2 x).2 y =
      Set.contains (Set.insert hs x).2 y) ∧
    (Set.insert bs x).1 = !Set.contains bs x ∧
    Set.contains (Set.insert bs x).2 x = true ∧
    Set.insert (Set.insert bs x).2 x = (false, (Set.insert bs x).2) ∧
    (∀ y, Set.contains (Set.insert (Set.insert bs x).2 x).2 y =
      Set.contains (Set.insert bs x).2 y) := by
  have hh : hashSetInsert (hashSetInsert hs.elems x).2 x = (false, (hashSetInsert hs.elems x).2) :=
    hashSetInsert_mem _ _ (hashSetContains_insert_self hs.elems x)
  have hb : btreeSetInsert (btreeSetInsert bs.elems x).2 x = (false, (btreeSetInsert bs.elems x).2) :=
    btreeSetInsert_mem _ _ (btreeSetContains_insert_self bs.elems x)
  refine ⟨?_, ?_, ?_, ?_, ?_, ?_, ?_, ?_⟩
  · rw [Set_insert_hashSet, Set_contains_hashSet]
    exact hashSetInsert_fst _ _
  · rw [Set_insert_hashSet]
    exact hashSetContains_insert_self _ _
  · simp [Set_insert_hashSet, hh]
  · intro y
    simp [Set_insert_hashSet, Set_contains_hashSet, hh]
  · rw [Set_insert_btreeSet, Set_contains_btreeSet]
    exact btreeSetInsert_fst _ _
  · rw [Set_insert_btreeSet]
    exact btreeSetContains_insert_self _ _
  · simp [Set_insert_btreeSet, hb]
  · intro y
    simp [Set_insert_btreeSet, Set_contains_btreeSet, hb]

/-- C7: for the hash and tree adapters of Map and Set, a get or contains
call whose Q-typed query equals the borrowed view of the owned key,
under a view that agrees with the comparison discipline of the owned key
type, returns the same result as the call with the owned key itself. -/
theorem C7_heterogeneous_lookup {K V Q : Type} [LinearOrder K] [LinearOrder Q]
    (view : K → Q) (heq : ∀ a b : K, view a = view b ↔ a = b)
    (hlt : ∀ a b : K, view a < view b ↔ a < b)
    (l : List (K × V)) (s : List K) (k : K) (q : Q) (hq : q = view k) :
    hashGetBy view l q = hashGet l k ∧
    btreeGetBy view l q = btreeGet l k ∧
    hashSetContainsBy view s q = hashSetContains s k ∧
    btreeSetContainsBy view s q = btreeSetContains s k := by
  subst hq
  exact ⟨hashGetBy_view view heq l k, btreeGetBy_view view heq hlt l k,
    hashSetContainsBy_view view heq s k, btreeSetContainsBy_view view heq hlt s k⟩

/-- C7 witness at a concrete input: owned keys of type Nat queried
through their view as Int, which preserves equality and order. -/
theorem C7_heterogeneous_lookup_witness :
    (∀ a b : ℕ, ((a : ℤ) = (b : ℤ)) ↔ a = b) ∧
    (∀ a b : ℕ, ((a : ℤ) < (b : ℤ)) ↔ a < b) ∧
    ((2 : ℤ) = ((2 : ℕ) : ℤ)) ∧
    (hashGetBy (fun n : ℕ => (n : ℤ)) [(2, 9)] 2 = hashGet [((2 : ℕ), (9 : ℕ))] 2 ∧
      btreeGetBy (fun n : ℕ => (n : ℤ)) [(2, 9)] 2 = btreeGet [((2 : ℕ), (9 : ℕ))] 2 ∧
      hashSetContainsBy (fun n : ℕ => (n : ℤ)) [2, 3] 2 = hashSetContains [(2 : ℕ), 3] 2 ∧
      btreeSetContainsBy (fun n : ℕ => (n : ℤ)) [2, 3] 2 = btreeSetContains [(2 : ℕ), 3] 2) :=
  ⟨fun a b => Nat.cast_inj, fun a b => Nat.cast_lt, by simp,
    C7_heterogeneous_lookup (fun n : ℕ => (n : ℤ)) (fun a b => Nat.cast_inj)
      (fun a b => Nat.cast_lt) [(2, 9)] [2, 3] 2 2 (by simp)⟩

/-- C8: every SyncGetFuture and every SyncInsertFuture produced by the
AsyncMap adapter returns Poll.Ready on its first poll, and no poll of
such a future returns Poll.Pending. -/
theorem C8_poll_always_ready {M K V : Type} [Map M K V] (f : SyncGetFuture M K)
    (g : SyncInsertFuture M K V) :
    SyncGetFuture.poll (V := V) f ≠ Poll.Pending ∧
    (∃ r, SyncGetFuture.poll (V := V) f = Poll.Ready r) ∧
    g.poll ≠ Poll.Pending ∧
    (∃ r, g.poll = Poll.Ready r) :=
  ⟨by simp [SyncGetFuture.poll], ⟨_, rfl⟩, by simp [SyncInsertFuture.poll], ⟨_, rfl⟩⟩

/-- C9: the get method of the HashMap and BTreeMap adapters takes the
container by shared borrow, so the call leaves the state unchanged and
any subsequent call returns what it would have returned without the
intervening get; and get returns none exactly when no entry with an
equal key is present (for the BTreeMap adapter under the key-ordering
invariant of reachable states). -/
theorem C9_get_no_side_effects {K V : Type} [DecidableEq K] [LinearOrder K]
    (hm : HashMap K V) (bm : BTreeMap K V) (k q : K)
    (hs : sortedKeys bm.entries = true) :
    (HashMap.getCall hm k).2 = hm ∧
    HashMap.getCall (HashMap.getCall hm k).2 q = HashMap.getCall hm q ∧
    (HashMap.getCall hm k).1 = Map.get hm k ∧
    ((HashMap.getCall hm k).1 = none ↔ ∀ p ∈ hm.entries, p.1 ≠ k) ∧
    (BTreeMap.getCall bm k).2 = bm ∧
    BTreeMap.getCall (BTreeMap.getCall bm k).2 q = BTreeMap.getCall bm q ∧
    (BTreeMap.getCall bm k).1 = Map.get bm k ∧
    ((BTreeMap.getCall bm k).1 = none ↔ ∀ p ∈ bm.entries, p.1 ≠ k) :=
  ⟨rfl, rfl, rfl, hashGet_eq_none_iff _ _, rfl, rfl, rfl, btreeGet_eq_none_iff _ hs⟩

/-- C9 witness at a concrete input: singleton maps queried at the
present key 1 and at the absent key 0. -/
theorem C9_get_no_side_effects_witness :
    sortedKeys ((⟨[(1, 2)]⟩ : BTreeMap ℕ ℕ)).entries = true ∧
    ((HashMap.getCall (⟨[(1, 2)]⟩ : HashMap ℕ ℕ) 1).2 = (⟨[(1, 2)]⟩ : HashMap ℕ ℕ) ∧
      HashMap.getCall (HashMap.getCall (⟨[(1, 2)]⟩ : HashMap ℕ ℕ) 1).2 0 =
        HashMap.getCall (⟨[(1, 2)]⟩ : HashMap ℕ ℕ) 0 ∧
      (HashMap.getCall (⟨[(1, 2)]⟩ : HashMap ℕ ℕ) 1).1 =
        Map.get (⟨[(1, 2)]⟩ : HashMap ℕ ℕ) 1 ∧
      ((HashMap.getCall (⟨[(1, 2)]⟩ : HashMap ℕ ℕ) 1).1 = none ↔
        ∀ p ∈ ((⟨[(1, 2)]⟩ : HashMap ℕ ℕ)).entries, p.1 ≠ 1) ∧
      (BTreeMap.getCall (⟨[(1, 2)]⟩ : BTreeMap ℕ ℕ) 1).2 = (⟨[(1, 2)]⟩ : BTreeMap ℕ ℕ) ∧
      BTreeMap.getCall (BTreeMap.getCall (⟨[(1, 2)]⟩ : BTreeMap ℕ ℕ) 1).2 0 =
        BTreeMap.getCall (⟨[(1, 2)]⟩ : BTreeMap ℕ ℕ) 0 ∧
      (BTreeMap.getCall (⟨[(1, 2)]⟩ : BTreeMap ℕ ℕ) 1).1 =
        Map.get (⟨[(1, 2)]⟩ : BTreeMap ℕ ℕ) 1 ∧
      ((BTreeMap.getCall (⟨[(1, 2)]⟩ : BTreeMap ℕ ℕ) 1).1 = none ↔
        ∀ p ∈ ((⟨[(1, 2)]⟩ : BTreeMap ℕ ℕ)).entries, p.1 ≠ 1)) :=
  ⟨by decide,
    C9_get_no_side_effects (⟨[(1, 2)]⟩ : HashMap ℕ ℕ) (⟨[(1, 2)]⟩ : BTreeMap ℕ ℕ) 1 0
      (by decide)⟩

/-- C10: LastInsertMap::new over a hash-backed inner map inserts the
seed pair into the inner map and discards the returned Option: the
constructed state is exactly the post-insert inner map with the seed
shadow, it is identical to the state constructed from a map in which the
previous value under an equal key was already overwritten (so a
displaced previous value is never observable), and afterwards get at the
seed key returns the seed value and get_last_insert returns the seed
pair. -/
theorem C10_new_discards_displaced {K V : Type} [DecidableEq K] (m : HashMap K V)
    (k : K) (v v0 : V) (_h : Map.get m k = some v0) :
    LastInsertMap.new m k v = ⟨(Map.insert m k v).2, k, v⟩ ∧
    LastInsertMap.new m k v = LastInsertMap.new (Map.insert m k v).2 k v ∧
    Map.get (LastInsertMap.new m k v) k = some v ∧
    (LastInsertMap.new m k v).get_last_insert = (k, v) := by
  refine ⟨rfl, ?_, ?_, rfl⟩
  · simp [LastInsertMap.new, Map_insert_hashMap, hashInsert_hashInsert_self]
  · rw [Map_get_lastInsertMap]
    simp [LastInsertMap.new, Map_insert_hashMap, Map_get_hashMap,
      hashGet_hashInsert_self]

/-- C10 witness at a concrete input: the inner map already holds (1, 99)
before being seeded with (1, 2); the displaced 99 is dropped. -/
theorem C10_new_discards_displaced_witness :
    Map.get (⟨[(1, 99)]⟩ : HashMap ℕ ℕ) 1 = some 99 ∧
    (LastInsertMap.new (⟨[(1, 99)]⟩ : HashMap ℕ ℕ) 1 2 =
        ⟨(Map.insert (⟨[(1, 99)]⟩ : HashMap ℕ ℕ) 1 2).2, 1, 2⟩ ∧
      LastInsertMap.new (⟨[(1, 99)]⟩ : HashMap ℕ ℕ) 1 2 =
        LastInsertMap.new (Map.insert (⟨[(1, 99)]⟩ : HashMap ℕ ℕ) 1 2).2 1 2 ∧
      Map.get (LastInsertMap.new (⟨[(1, 99)]⟩ : HashMap ℕ ℕ) 1 2) 1 = some 2 ∧
      (LastInsertMap.new (⟨[(1, 99)]⟩ : HashMap ℕ ℕ) 1 2).get_last_insert = (1, 2)) :=
  ⟨by decide, C10_new_discards_displaced (⟨[(1, 99)]⟩ : HashMap ℕ ℕ) 1 2 99 (by decide)⟩

end MapTrait
